import Mathlib

/-!
Shallow embedding of the running-total stacked bar chart visual
(src/visual.ts).  The transform pipeline is translated function by
function:

* `sortQuarters` models `Visual.sortQuarters` (JS `Array.prototype.sort`
  with a `localeCompare` comparator).  JS sort is stable and in place; the
  mutation is made observable by `sortQuartersArgAfter`, the contents of
  the caller's array after the call, which JS leaves equal to the returned
  (sorted) array.  Locale comparison on ASCII period labels coincides with
  lexicographic string order, which is how the comparator is modelled, and
  `List.insertionSort` is a stable comparison sort.
* `buildDataArray` models `Visual.buildDataArray`.
* `computeRunningTotals` models `Visual.computeRunningTotals`.
* `transformToStackedData` models `Visual.transformToStackedData`.
* `update` models the data path of `Visual.update`: the drawing calls drop
  out, and the function returns `none` exactly when the code returns early
  (after clearing the surface), drawing nothing.

JS numbers are modelled by `ℚ`.  A raw value cell is an `Option ℚ`, with
`none` standing for `null`/`undefined`/missing (the host delivers numbers
or nulls for a numeric measure; `NaN` is also falsy and behaves like
`none` under the coercion below).  The JS coercion `(x as number) || 0` is
`jsNum`: falsy cells (missing, null, 0) coerce to `0`, which on numbers
agrees with `Option.getD 0`.
-/

/-- Flat record of the visual: one DataPoint per (quarter, category) pair. -/
structure DataPoint where
  quarter : String
  category : String
  value : ℚ
  deriving DecidableEq

/-- DataPoint plus the category's running total after this record. -/
structure ProcessedDataPoint where
  quarter : String
  category : String
  value : ℚ
  runningTotal : ℚ
  deriving DecidableEq

/-- Pivoted record: the JS object `{ quarter: ..., [category]: number }` is
modelled as the quarter plus the association list of category fields in
assignment order (duplicate category names keep the first binding, which
holds the same value the last assignment would). -/
structure StackedDataPoint where
  quarter : String
  fields : List (String × ℚ)
  deriving DecidableEq

/-- Group of value columns as returned by `values.grouped()`: the group
name (the series category) and its measure columns, each a list of cells. -/
structure ValueGroup where
  name : String
  columns : List (List (Option ℚ))
  deriving DecidableEq

/-- Categorical column of period labels (`category.values` cast to string). -/
structure CategoryColumn where
  values : List String
  deriving DecidableEq

/-- Categorical part of the data view; `categories` and `values` may each be
absent (`undefined`) independently of being empty. -/
structure Categorical where
  categories : Option (List CategoryColumn)
  values : Option (List ValueGroup)
  deriving DecidableEq

/-- Data view handed to `update`; `categorical` may be absent. -/
structure DataView where
  categorical : Option Categorical
  deriving DecidableEq

/-- Result of the data path of `update`: everything the drawing step
consumes.  `yDomain` is the domain pair given to the linear vertical scale. -/
structure RenderData where
  quarters : List String
  seriesCategories : List String
  stackedData : List StackedDataPoint
  maxY : ℚ
  yDomain : ℚ × ℚ
  deriving DecidableEq

/-- JS coercion `(cell as number) || 0` on a number-or-null cell. -/
def jsNum (cell : Option ℚ) : ℚ :=
  cell.getD 0

/-- JS truthiness test `!x` on a number-or-undefined slot: `undefined`, `0`
(and `NaN`, which the pipeline never stores) are falsy. -/
def jsFalsyNum : Option ℚ → Bool
  | none => true
  | some v => v == 0

/-- JS test `!xs || xs.length === 0` on an optional array. -/
def jsMissingOrEmpty {α : Type} (o : Option (List α)) : Bool :=
  match o with
  | none => true
  | some l => l.isEmpty

/-- Lexicographic comparison of character lists by code point, the order
`localeCompare` induces on the ASCII period labels the visual sorts. -/
def charListLe : List Char → List Char → Bool
  | [], _ => true
  | _ :: _, [] => false
  | a :: as, b :: bs => if a = b then charListLe as bs else decide (a < b)

/-- Comparator order of `sortQuarters`: `a.localeCompare(b) <= 0`. -/
def localeLe (a b : String) : Prop :=
  charListLe a.data b.data = true

instance decidableLocaleLe : DecidableRel localeLe := fun a b =>
  inferInstanceAs (Decidable (charListLe a.data b.data = true))

instance isTotalCharListLe : IsTotal (List Char) (fun a b => charListLe a b = true) where
  total := by
    intro a b
    induction a generalizing b with
    | nil => exact Or.inl rfl
    | cons x xs ih =>
      cases b with
      | nil => exact Or.inr rfl
      | cons y ys =>
        by_cases hxy : x = y
        · subst hxy
          rcases ih ys with h | h
          · exact Or.inl (by simpa [charListLe] using h)
          · exact Or.inr (by simpa [charListLe] using h)
        · rcases lt_or_gt_of_ne hxy with h | h
          · exact Or.inl (by simp [charListLe, hxy, h])
          · refine Or.inr ?_
            have hyx : y < x := h
            simp [charListLe, Ne.symm hxy, hyx]

instance isTotalLocaleLe : IsTotal String localeLe where
  total := fun a b => isTotalCharListLe.total a.data b.data

instance isTransCharListLe : IsTrans (List Char) (fun a b => charListLe a b = true) where
  trans := by
    intro a b c hab hbc
    induction a generalizing b c with
    | nil => rfl
    | cons x xs ih =>
      cases b with
      | nil => simp [charListLe] at hab
      | cons y ys =>
        cases c with
        | nil => simp [charListLe] at hbc
        | cons z zs =>
          by_cases hxy : x = y
          · subst hxy
            by_cases hyz : x = z
            · subst hyz
              simp only [charListLe, if_pos rfl] at hab hbc ⊢
              exact ih ys zs hab hbc
            · simp only [charListLe, if_pos rfl] at hab
              simp only [charListLe, if_neg hyz] at hbc ⊢
              exact hbc
          · simp only [charListLe, if_neg hxy, decide_eq_true_eq] at hab
            by_cases hyz : y = z
            · subst hyz
              simp [charListLe, hxy, hab]
            · simp only [charListLe, if_neg hyz, decide_eq_true_eq] at hbc
              have hxz : x < z := lt_trans hab hbc
              simp [charListLe, ne_of_lt hxz, hxz]

instance isTransLocaleLe : IsTrans String localeLe where
  trans := fun a b c hab hbc => isTransCharListLe.trans a.data b.data c.data hab hbc

/-- Model of `Visual.sortQuarters`: `quarters.sort((a, b) => a.localeCompare(b))`,
a stable ascending sort by string comparison. -/
def sortQuarters (quarters : List String) : List String :=
  List.insertionSort localeLe quarters

/-- Contents of the caller's `quarters` array after `sortQuarters` returns:
JS `Array.prototype.sort` sorts in place, so the argument ends up equal to
the returned sorted array. -/
def sortQuartersArgAfter (quarters : List String) : List String :=
  sortQuarters quarters

/-- First measure column of the `j`-th group, `values.grouped()[j].values[0]`
(the code assumes a single measure).  The `.getD []` default is never
reached on the pipeline's inputs, where `j` indexes an existing group with
at least one measure. -/
def groupCol (values : List ValueGroup) (j : Nat) : List (Option ℚ) :=
  (((values.get? j).bind (fun g => g.columns.head?))).getD []

/-- Inner loop of `buildDataArray` for one category: for each period index
`i` push `{ quarter: quarters[i], category, value: valueColumn.values[i] || 0 }`. -/
def buildRow (quarters : List String) (category : String)
    (valueColumn : List (Option ℚ)) : List DataPoint :=
  (List.range quarters.length).map (fun i =>
    ⟨quarters.getD i "", category, jsNum (valueColumn.getD i none)⟩)

/-- Model of `Visual.buildDataArray`: category-major double loop over the
category index `j` and period index `i`, reading only the first measure of
each group. -/
def buildDataArray (quarters : List String) (seriesCategories : List String)
    (values : List ValueGroup) : List DataPoint :=
  ((List.range seriesCategories.length).map (fun j =>
    buildRow quarters (seriesCategories.getD j "") (groupCol values j))).flatten

/-- Assignment `runningTotals[key] = v` on the accumulator object, which is
modelled as a partial map `String → Option ℚ` with `none` for an absent key
(`undefined`). -/
def mapSet (s : String → Option ℚ) (key : String) (v : Option ℚ) :
    String → Option ℚ :=
  fun k => if k = key then v else s k

/-- One iteration of the `data.forEach` body of `computeRunningTotals`:
`if (!runningTotals[key]) runningTotals[key] = 0; runningTotals[key] += d.value;`
then push the processed record.  After the falsy guard the key is always
present, holding `(s0 d.category).getD 0` exactly (the guard rewrites both
`undefined` and `0` to `0`). -/
def rtStep (s : String → Option ℚ) (d : DataPoint) :
    (String → Option ℚ) × ProcessedDataPoint :=
  let s0 := if jsFalsyNum (s d.category) then mapSet s d.category (some 0) else s
  let newTotal := (s0 d.category).getD 0 + d.value
  (mapSet s0 d.category (some newTotal),
    ⟨d.quarter, d.category, d.value, newTotal⟩)

/-- Loop of `computeRunningTotals` threading the accumulator object. -/
def computeRunningTotalsGo (s : String → Option ℚ) :
    List DataPoint → List ProcessedDataPoint
  | [] => []
  | d :: rest => (rtStep s d).2 :: computeRunningTotalsGo (rtStep s d).1 rest

/-- Model of `Visual.computeRunningTotals`: the accumulator object starts
empty (`{}`). -/
def computeRunningTotals (data : List DataPoint) : List ProcessedDataPoint :=
  computeRunningTotalsGo (fun _ => none) data

/-- Model of `Visual.transformToStackedData`: one StackedDataPoint per
element of `quarters`, each category field set from the first
ProcessedDataPoint matching that exact (quarter, category) pair via
`processedData.find(...)`, defaulting to `0`. -/
def transformToStackedData (processedData : List ProcessedDataPoint)
    (quarters : List String) (seriesCategories : List String) :
    List StackedDataPoint :=
  quarters.map (fun quarter =>
    ⟨quarter, seriesCategories.map (fun category =>
      (category,
        match processedData.find? (fun d => d.quarter == quarter && d.category == category) with
        | some d => d.runningTotal
        | none => 0))⟩)

/-- Lookup of a category field on a StackedDataPoint; `none` models a JS
`undefined` property read. -/
def fieldLookup (d : StackedDataPoint) (category : String) : Option ℚ :=
  (d.fields.find? (fun p => p.1 == category)).map (fun p => p.2)

/-- JS read `d[category] as number || 0` used when summing a record's stack
height in `update`. -/
def fieldValue (d : StackedDataPoint) (category : String) : ℚ :=
  (fieldLookup d category).getD 0

/-- Model of `d3.max` on a list of numbers: running maximum of the scan,
`undefined` (`none`) on an empty list. -/
def d3max (l : List ℚ) : Option ℚ :=
  l.foldl (fun acc v => match acc with | none => some v | some m => some (max m v)) none

/-- Computation of `maxY` in `update`: `d3.max(stackedData, sum of the
categories' fields) || 0`. -/
def computeMaxY (stackedData : List StackedDataPoint)
    (seriesCategories : List String) : ℚ :=
  (d3max (stackedData.map (fun d =>
    (seriesCategories.map (fun c => fieldValue d c)).sum))).getD 0

/-- Model of the data path of `Visual.update`.  The surface is cleared
unconditionally first; `none` means the code returned early and nothing is
drawn.  `options.dataViews[0]` is the head of the list, `values.grouped()`
is the group list itself, and the sorted `quarters` array (mutated in
place by `sortQuarters`) feeds the horizontal scale domain, the flat
records and the pivot, just as the single mutated array does in the code. -/
def update (dataViews : List DataView) : Option RenderData :=
  match dataViews.head? with
  | none => none
  | some dataView =>
    match dataView.categorical with
    | none => none
    | some categorical =>
      if jsMissingOrEmpty categorical.categories || jsMissingOrEmpty categorical.values then
        none
      else
        let category := (categorical.categories.getD []).headD ⟨[]⟩
        let quarters := sortQuarters category.values
        let values := categorical.values.getD []
        let seriesCategories := values.map (fun g => g.name)
        let data := buildDataArray quarters seriesCategories values
        let processedData := computeRunningTotals data
        let stackedData := transformToStackedData processedData quarters seriesCategories
        let maxY := computeMaxY stackedData seriesCategories
        some ⟨quarters, seriesCategories, stackedData, maxY, (0, maxY)⟩

/-- C1: for periods ["2023Q2","2023Q1"], categories ["A","B"], first value
series A=[10,5] and B=[3,7], the pipeline sorts the periods to
["2023Q1","2023Q2"], binds value-array index i to sorted period index i
(A gets 10 at 2023Q1 and 5 at 2023Q2, B gets 3 at 2023Q1 and 7 at 2023Q2),
and produces running totals A: Q1=10, Q2=15 and B: Q1=3, Q2=10. -/
theorem scenario_basic_pipeline :
    sortQuarters ["2023Q2", "2023Q1"] = ["2023Q1", "2023Q2"] ∧
    buildDataArray (sortQuarters ["2023Q2", "2023Q1"]) ["A", "B"]
        [⟨"A", [[some 10, some 5]]⟩, ⟨"B", [[some 3, some 7]]⟩] =
      [⟨"2023Q1", "A", 10⟩, ⟨"2023Q2", "A", 5⟩,
       ⟨"2023Q1", "B", 3⟩, ⟨"2023Q2", "B", 7⟩] ∧
    computeRunningTotals (buildDataArray (sortQuarters ["2023Q2", "2023Q1"]) ["A", "B"]
        [⟨"A", [[some 10, some 5]]⟩, ⟨"B", [[some 3, some 7]]⟩]) =
      [⟨"2023Q1", "A", 10, 10⟩, ⟨"2023Q2", "A", 5, 15⟩,
       ⟨"2023Q1", "B", 3, 3⟩, ⟨"2023Q2", "B", 7, 10⟩] := by
  refine ⟨by decide, ?_, ?_⟩ <;>
    norm_num +decide [sortQuarters, buildDataArray, buildRow, groupCol, jsNum,
      computeRunningTotals, computeRunningTotalsGo, rtStep, jsFalsyNum, mapSet]

/-- C4 counterexample: sortQuarters sorts the caller's array in place, so
the input argument does not stay unchanged: on input ["2023Q2","2023Q1"]
the argument ends up ["2023Q1","2023Q2"]. -/
theorem sortQuarters_mutates_input :
    ¬ sortQuartersArgAfter ["2023Q2", "2023Q1"] = ["2023Q2", "2023Q1"] ∧
    sortQuartersArgAfter ["2023Q2", "2023Q1"] = ["2023Q1", "2023Q2"] := by
  decide

/-- C4 amended: sortQuarters returns the ascending sorted permutation of
its input, but it sorts the caller's array in place rather than leaving it
unchanged: after the call the argument equals the returned sorted
sequence, and it equals the original input only when that input was
already sorted. -/
theorem sortQuarters_sorts_in_place (quarters : List String) :
    List.Perm (sortQuarters quarters) quarters ∧
    List.Sorted localeLe (sortQuarters quarters) ∧
    sortQuartersArgAfter quarters = sortQuarters quarters ∧
    (sortQuartersArgAfter quarters = quarters ↔ List.Sorted localeLe quarters) := by
  refine ⟨List.perm_insertionSort _ _, List.sorted_insertionSort _ _, rfl, ?_, ?_⟩
  · intro h
    have hs := List.sorted_insertionSort localeLe quarters
    rw [show List.insertionSort localeLe quarters = sortQuartersArgAfter quarters from rfl,
      h] at hs
    exact hs
  · intro h
    exact h.insertionSort_eq

/-- C4 witness: the amended statement instantiated on a concrete list. -/
theorem sortQuarters_sorts_in_place_witness :
    sortQuartersArgAfter ["b", "a"] = sortQuarters ["b", "a"] ∧
    ¬ sortQuartersArgAfter ["b", "a"] = ["b", "a"] := by
  refine ⟨(sortQuarters_sorts_in_place ["b", "a"]).2.2.1, fun h => ?_⟩
  have hs := (sortQuarters_sorts_in_place ["b", "a"]).2.2.2.mp h
  have hle := (List.sorted_cons.mp hs).1 "a" (List.mem_singleton.mpr rfl)
  exact absurd hle (by decide)

/-! Helper lemmas on the running-total loop. -/

/-- Numeric reading of an accumulator slot: absent keys read as 0 (which is
also what the falsy guard of the loop writes before the first addition). -/
def accVal (s : String → Option ℚ) (c : String) : ℚ :=
  (s c).getD 0

/-- Running sums of a value list from a base: entry k is the base plus the
sum of the first k+1 values. -/
def runSums (b : ℚ) : List ℚ → List ℚ
  | [] => []
  | v :: l => (b + v) :: runSums (b + v) l

theorem rtStep_snd (s : String → Option ℚ) (d : DataPoint) :
    (rtStep s d).2 = ⟨d.quarter, d.category, d.value, accVal s d.category + d.value⟩ := by
  cases hs : s d.category with
  | none => simp [rtStep, accVal, mapSet, jsFalsyNum, hs]
  | some v =>
    by_cases hv : v = 0 <;> simp [rtStep, accVal, mapSet, jsFalsyNum, hs, hv]

theorem accVal_rtStep (s : String → Option ℚ) (d : DataPoint) (c : String) :
    accVal (rtStep s d).1 c = accVal s c + (if c = d.category then d.value else 0) := by
  by_cases h : c = d.category
  · subst h
    cases hs : s d.category with
    | none => simp [rtStep, accVal, mapSet, jsFalsyNum, hs]
    | some v =>
      by_cases hv : v = 0 <;> simp [rtStep, accVal, mapSet, jsFalsyNum, hs, hv]
  · cases hs : s d.category with
    | none => simp [rtStep, accVal, mapSet, jsFalsyNum, hs, h]
    | some v =>
      by_cases hv : v = 0 <;> simp [rtStep, accVal, mapSet, jsFalsyNum, hs, hv, h]

theorem computeRunningTotalsGo_length (data : List DataPoint) :
    ∀ s, (computeRunningTotalsGo s data).length = data.length := by
  induction data with
  | nil => intro s; rfl
  | cons d rest ih => intro s; simp [computeRunningTotalsGo, ih]

theorem computeRunningTotalsGo_get? (c : String) :
    ∀ (data : List DataPoint) (s : String → Option ℚ) (k : Nat) (d : DataPoint),
      data.get? k = some d → d.category = c →
      (computeRunningTotalsGo s data).get? k =
        some ⟨d.quarter, d.category, d.value,
          accVal s c +
            (((data.take (k + 1)).filter (fun x => x.category == c)).map
              (fun x => x.value)).sum⟩ := by
  intro data
  induction data with
  | nil => intro s k d h; simp at h
  | cons d0 rest ih =>
    intro s k d h hc
    cases k with
    | zero =>
      simp only [List.get?_cons_zero, Option.some.injEq] at h
      subst h
      simp [computeRunningTotalsGo, rtStep_snd, hc]
    | succ k =>
      simp only [List.get?_cons_succ] at h
      have step := ih (rtStep s d0).1 k d h hc
      simp only [computeRunningTotalsGo, List.get?_cons_succ, step,
        Option.some.injEq, ProcessedDataPoint.mk.injEq, true_and]
      rw [accVal_rtStep]
      simp only [List.take_succ_cons, List.filter_cons]
      by_cases h0 : d0.category = c
      · simp [h0, eq_comm, add_assoc]
      · have hb : (d0.category == c) = false := by simp [h0]
        have hcc : ¬ c = d0.category := fun hh => h0 hh.symm
        simp [hb, hcc]

theorem computeRunningTotalsGo_filter_value (c : String) :
    ∀ (data : List DataPoint) (s : String → Option ℚ),
      (((computeRunningTotalsGo s data).filter (fun p => p.category == c)).map
        (fun p => p.value)) =
      ((data.filter (fun d => d.category == c)).map (fun d => d.value)) := by
  intro data
  induction data with
  | nil => intro s; rfl
  | cons d rest ih =>
    intro s
    simp only [computeRunningTotalsGo, List.filter_cons, rtStep_snd]
    by_cases hc : d.category = c
    · simp only [hc, beq_self_eq_true, if_pos, List.map_cons, ih]
    · have : (d.category == c) = false := by simp [hc]
      simp only [this, List.filter_cons, ih]
      simp [ih]

theorem computeRunningTotalsGo_filter_runningTotal (c : String) :
    ∀ (data : List DataPoint) (s : String → Option ℚ),
      (((computeRunningTotalsGo s data).filter (fun p => p.category == c)).map
        (fun p => p.runningTotal)) =
      runSums (accVal s c)
        ((data.filter (fun d => d.category == c)).map (fun d => d.value)) := by
  intro data
  induction data with
  | nil => intro s; rfl
  | cons d rest ih =>
    intro s
    simp only [computeRunningTotalsGo, List.filter_cons, rtStep_snd]
    by_cases hc : d.category = c
    · subst hc
      simp [runSums, ih, accVal_rtStep]
    · have hb : (d.category == c) = false := by simp [hc]
      have hcc : ¬ c = d.category := fun hh => hc hh.symm
      simp [hb, ih, accVal_rtStep, hcc]

theorem runSums_ge_base (l : List ℚ) :
    ∀ b, (∀ v ∈ l, 0 ≤ v) → ∀ x ∈ runSums b l, b ≤ x := by
  induction l with
  | nil => intro b _ x hx; simp [runSums] at hx
  | cons v l ih =>
    intro b hl x hx
    have hv : 0 ≤ v := hl v (List.mem_cons_self _ _)
    have hl' : ∀ w ∈ l, 0 ≤ w := fun w hw => hl w (List.mem_cons_of_mem _ hw)
    simp only [runSums, List.mem_cons] at hx
    rcases hx with rfl | hx
    · linarith
    · have := ih (b + v) hl' x hx
      linarith

theorem runSums_sorted (l : List ℚ) :
    ∀ b, (∀ v ∈ l, 0 ≤ v) → List.Sorted (· ≤ ·) (runSums b l) := by
  induction l with
  | nil => intro b _; exact List.sorted_nil
  | cons v l ih =>
    intro b hl
    have hl' : ∀ w ∈ l, 0 ≤ w := fun w hw => hl w (List.mem_cons_of_mem _ hw)
    refine List.sorted_cons.mpr ⟨?_, ih (b + v) hl'⟩
    intro x hx
    exact runSums_ge_base l (b + v) hl' x hx

theorem runSums_getLast? (l : List ℚ) :
    ∀ b, l ≠ [] → (runSums b l).getLast? = some (b + l.sum) := by
  induction l with
  | nil => intro b h; exact absurd rfl h
  | cons v l ih =>
    intro b _
    cases l with
    | nil => simp [runSums]
    | cons w l' =>
      have hstep : (runSums b (v :: w :: l')).getLast? =
          (runSums (b + v) (w :: l')).getLast? := by
        show ((b + v) :: (b + v + w) :: runSums (b + v + w) l').getLast? = _
        rw [List.getLast?_cons_cons]
        rfl
      rw [hstep, ih (b + v) (by simp)]
      simp [add_assoc]

/-- C5: computeRunningTotals keeps one accumulator per category initialized
to 0, processes records in input order, and emits for each record a
ProcessedDataPoint whose runningTotal is the accumulator's value after the
record's value is added: the k-th output record carries the k-th input
record's fields together with the sum of the values of the first k+1
records of its category, so a first value of 0 for a category yields an
emitted runningTotal of 0 rather than a missing value. -/
theorem computeRunningTotals_accumulator (data : List DataPoint) (k : Nat)
    (d : DataPoint) (h : data.get? k = some d) :
    (computeRunningTotals data).get? k =
      some ⟨d.quarter, d.category, d.value,
        (((data.take (k + 1)).filter (fun x => x.category == d.category)).map
          (fun x => x.value)).sum⟩ := by
  have hgo := computeRunningTotalsGo_get? d.category data (fun _ => none) k d h rfl
  simpa [computeRunningTotals, accVal] using hgo

/-- C5 witness: a category whose first value is 0 gets runningTotal 0 on its
first record. -/
theorem computeRunningTotals_accumulator_witness :
    (computeRunningTotals [⟨"Q1", "A", 0⟩, ⟨"Q2", "A", 2⟩]).get? 0 =
      some ⟨"Q1", "A", 0, 0⟩ := by
  have h := computeRunningTotals_accumulator [⟨"Q1", "A", 0⟩, ⟨"Q2", "A", 2⟩] 0
    ⟨"Q1", "A", 0⟩ rfl
  norm_num +decide at h
  exact h

/-- C10: computeRunningTotals returns a sequence of the same length as its
input, and the k-th output record's quarter, category and value fields
equal those of the k-th input record; only the runningTotal field is added. -/
theorem computeRunningTotals_preserves_input (data : List DataPoint) :
    (computeRunningTotals data).length = data.length ∧
    ∀ k d, data.get? k = some d →
      ∃ p, (computeRunningTotals data).get? k = some p ∧
        p.quarter = d.quarter ∧ p.category = d.category ∧ p.value = d.value := by
  refine ⟨computeRunningTotalsGo_length data _, ?_⟩
  intro k d h
  exact ⟨_, computeRunningTotalsGo_get? d.category data (fun _ => none) k d h rfl,
    rfl, rfl, rfl⟩

/-- C10 witness: the frame property instantiated on a concrete record list. -/
theorem computeRunningTotals_preserves_input_witness :
    (computeRunningTotals [⟨"Q1", "A", 3⟩]).length = 1 ∧
    ∃ p, (computeRunningTotals [⟨"Q1", "A", 3⟩]).get? 0 = some p ∧
      p.quarter = "Q1" ∧ p.category = "A" ∧ p.value = 3 := by
  obtain ⟨h1, h2⟩ := computeRunningTotals_preserves_input [⟨"Q1", "A", 3⟩]
  exact ⟨h1, h2 0 ⟨"Q1", "A", 3⟩ rfl⟩

/-- C2: for any category, over the flat record sequence buildDataArray
produces, the running totals computeRunningTotals emits for that category
are non-decreasing whenever all of that category's values are
non-negative, and the running total of that category's last record equals
the sum of all of that category's values. -/
theorem running_totals_monotone_and_total (quarters seriesCategories : List String)
    (values : List ValueGroup) (c : String)
    (hpos : ∀ d ∈ (buildDataArray quarters seriesCategories values).filter
      (fun d => d.category == c), (0 : ℚ) ≤ d.value) :
    List.Sorted (· ≤ ·)
      (((computeRunningTotals (buildDataArray quarters seriesCategories values)).filter
        (fun p => p.category == c)).map (fun p => p.runningTotal)) ∧
    ((computeRunningTotals (buildDataArray quarters seriesCategories values)).filter
        (fun p => p.category == c) ≠ [] →
      ∃ last, ((computeRunningTotals (buildDataArray quarters seriesCategories values)).filter
          (fun p => p.category == c)).getLast? = some last ∧
        last.runningTotal =
          ((((buildDataArray quarters seriesCategories values).filter
            (fun d => d.category == c)).map (fun d => d.value)).sum)) := by
  have hrt := computeRunningTotalsGo_filter_runningTotal c
    (buildDataArray quarters seriesCategories values) (fun _ => none)
  have hvals : ∀ v ∈ ((buildDataArray quarters seriesCategories values).filter
      (fun d => d.category == c)).map (fun d => d.value), (0 : ℚ) ≤ v := by
    intro v hv
    obtain ⟨d, hd, rfl⟩ := List.mem_map.mp hv
    exact hpos d hd
  have hacc : accVal (fun _ => none) c = 0 := rfl
  rw [hacc] at hrt
  constructor
  · rw [show computeRunningTotals (buildDataArray quarters seriesCategories values) =
      computeRunningTotalsGo (fun _ => none) (buildDataArray quarters seriesCategories values)
      from rfl, hrt]
    exact runSums_sorted _ 0 hvals
  · intro hne
    have hne' : ((buildDataArray quarters seriesCategories values).filter
        (fun d => d.category == c)).map (fun d => d.value) ≠ [] := by
      intro hcon
      apply hne
      have hmap := hrt
      rw [hcon] at hmap
      simp only [runSums] at hmap
      exact List.map_eq_nil_iff.mp hmap
    have hlast := runSums_getLast? _ 0 hne'
    have hmap : ((((computeRunningTotals (buildDataArray quarters seriesCategories values)).filter
        (fun p => p.category == c)).map (fun p => p.runningTotal)).getLast?) =
        some (0 + (((buildDataArray quarters seriesCategories values).filter
          (fun d => d.category == c)).map (fun d => d.value)).sum) := by
      rw [show computeRunningTotals (buildDataArray quarters seriesCategories values) =
        computeRunningTotalsGo (fun _ => none) (buildDataArray quarters seriesCategories values)
        from rfl, hrt, hlast]
    rw [List.getLast?_map] at hmap
    obtain ⟨last, hl1, hl2⟩ := Option.map_eq_some'.mp hmap
    exact ⟨last, hl1, by rw [hl2]; ring⟩

/-- C2 witness: the monotonicity half instantiated on a concrete input with
non-negative values. -/
theorem running_totals_monotone_and_total_witness :
    List.Sorted (· ≤ ·)
      (((computeRunningTotals (buildDataArray ["Q1", "Q2"] ["A"]
        [⟨"A", [[some 1, some 2]]⟩])).filter
        (fun p => p.category == "A")).map (fun p => p.runningTotal)) :=
  (running_totals_monotone_and_total ["Q1", "Q2"] ["A"] [⟨"A", [[some 1, some 2]]⟩] "A"
    (by norm_num +decide [buildDataArray, buildRow, groupCol, jsNum])).1

/-! Helper lemmas for indexing the category-major flat record list. -/

theorem flatten_get?_uniform {α : Type} (m : Nat) :
    ∀ (L : List (List α)), (∀ l ∈ L, l.length = m) →
      ∀ (j i : Nat), i < m →
        L.flatten.get? (j * m + i) = (L.get? j).bind (fun l => l.get? i) := by
  intro L
  induction L with
  | nil => intro _ j i _; simp
  | cons l L ih =>
    intro hlen j i him
    have hl : l.length = m := hlen l (List.mem_cons_self _ _)
    have hrest : ∀ x ∈ L, x.length = m := fun x hx => hlen x (List.mem_cons_of_mem _ hx)
    cases j with
    | zero =>
      rw [List.flatten_cons, Nat.zero_mul, Nat.zero_add,
        List.get?_append (by omega)]
      simp
    | succ j =>
      have hidx : (j + 1) * m + i = l.length + (j * m + i) := by rw [hl]; ring
      rw [List.flatten_cons, hidx, List.get?_append_right (by omega)]
      have : l.length + (j * m + i) - l.length = j * m + i := by omega
      rw [this, ih hrest j i him]
      simp

theorem buildRow_length (quarters : List String) (category : String)
    (valueColumn : List (Option ℚ)) :
    (buildRow quarters category valueColumn).length = quarters.length := by
  simp [buildRow]

theorem buildRow_get? (quarters : List String) (category : String)
    (valueColumn : List (Option ℚ)) (i : Nat) (hi : i < quarters.length) :
    (buildRow quarters category valueColumn).get? i =
      some ⟨quarters.getD i "", category, jsNum (valueColumn.getD i none)⟩ := by
  simp [buildRow, List.getElem?_range hi]

/-- C6: buildDataArray produces exactly one DataPoint for each category
index j and period index i, taken from the j-th group's first value series
at index i, with category-major then period-minor output: the (j, i)
record sits at flat position j * quarters.length + i, the total length is
seriesCategories.length * quarters.length, and the output depends on the
groups only through each group's first value series, so additional
measures in a group are ignored. -/
theorem buildDataArray_category_major (quarters seriesCategories : List String)
    (values : List ValueGroup) :
    (buildDataArray quarters seriesCategories values).length =
      seriesCategories.length * quarters.length ∧
    (∀ j i : Nat, j < seriesCategories.length → i < quarters.length →
      (buildDataArray quarters seriesCategories values).get? (j * quarters.length + i) =
        some ⟨quarters.getD i "", seriesCategories.getD j "",
          jsNum ((groupCol values j).getD i none)⟩) ∧
    (∀ values2 : List ValueGroup, (∀ j : Nat, groupCol values j = groupCol values2 j) →
      buildDataArray quarters seriesCategories values =
        buildDataArray quarters seriesCategories values2) := by
  have hlen : ∀ l ∈ (List.range seriesCategories.length).map (fun j =>
      buildRow quarters (seriesCategories.getD j "") (groupCol values j)),
      l.length = quarters.length := by
    intro l hl
    obtain ⟨j, _, rfl⟩ := List.mem_map.mp hl
    exact buildRow_length _ _ _
  refine ⟨?_, ?_, ?_⟩
  · rw [show buildDataArray quarters seriesCategories values =
      ((List.range seriesCategories.length).map (fun j =>
        buildRow quarters (seriesCategories.getD j "") (groupCol values j))).flatten from rfl]
    rw [List.length_flatten, List.map_map]
    have : (List.range seriesCategories.length).map
        (List.length ∘ fun j => buildRow quarters (seriesCategories.getD j "") (groupCol values j)) =
        (List.range seriesCategories.length).map (fun _ => quarters.length) := by
      apply List.map_congr_left
      intro j _
      exact buildRow_length _ _ _
    rw [this, List.map_const', List.sum_replicate, List.length_range, smul_eq_mul]
  · intro j i hj hi
    rw [show buildDataArray quarters seriesCategories values =
      ((List.range seriesCategories.length).map (fun j =>
        buildRow quarters (seriesCategories.getD j "") (groupCol values j))).flatten from rfl]
    rw [flatten_get?_uniform quarters.length _ hlen j i hi]
    have hr : ((List.range seriesCategories.length).map (fun j =>
        buildRow quarters (seriesCategories.getD j "") (groupCol values j))).get? j =
        some (buildRow quarters (seriesCategories.getD j "") (groupCol values j)) := by
      rw [List.get?_eq_getElem?, List.getElem?_map, List.getElem?_range hj]
      rfl
    rw [hr]
    simpa using buildRow_get? quarters (seriesCategories.getD j "") (groupCol values j) i hi
  · intro values2 hsame
    rw [show buildDataArray quarters seriesCategories values =
      ((List.range seriesCategories.length).map (fun j =>
        buildRow quarters (seriesCategories.getD j "") (groupCol values j))).flatten from rfl,
      show buildDataArray quarters seriesCategories values2 =
      ((List.range seriesCategories.length).map (fun j =>
        buildRow quarters (seriesCategories.getD j "") (groupCol values2 j))).flatten from rfl]
    congr 1
    apply List.map_congr_left
    intro j _
    rw [hsame j]

/-- C6 witness: the index formula instantiated at the second category and
first period of a two-category input. -/
theorem buildDataArray_category_major_witness :
    (buildDataArray ["Q1", "Q2"] ["A", "B"]
      [⟨"A", [[some 1, some 2]]⟩, ⟨"B", [[some 3, some 4]]⟩]).get? 2 =
      some ⟨"Q1", "B", 3⟩ := by
  have h := (buildDataArray_category_major ["Q1", "Q2"] ["A", "B"]
    [⟨"A", [[some 1, some 2]]⟩, ⟨"B", [[some 3, some 4]]⟩]).2.1 1 0
    (by norm_num) (by norm_num)
  simpa [groupCol, jsNum] using h

/-! Helper lemmas for the pivot step. -/

theorem transformToStackedData_get? (pd : List ProcessedDataPoint)
    (quarters seriesCategories : List String) (i : Nat) (q : String)
    (hq : quarters.get? i = some q) :
    (transformToStackedData pd quarters seriesCategories).get? i =
      some ⟨q, seriesCategories.map (fun category =>
        (category,
          match pd.find? (fun d => d.quarter == q && d.category == category) with
          | some d => d.runningTotal
          | none => 0))⟩ := by
  simp only [transformToStackedData, List.get?_eq_getElem?, List.getElem?_map]
  rw [← List.get?_eq_getElem?, hq]
  rfl

theorem find?_fields_map (g : String → ℚ) :
    ∀ (cats : List String) (c : String), c ∈ cats →
      ((cats.map (fun c2 => (c2, g c2))).find? (fun p => p.1 == c)) = some (c, g c) := by
  intro cats
  induction cats with
  | nil => intro c hc; cases hc
  | cons c0 rest ih =>
    intro c hc
    by_cases h : c0 = c
    · subst h
      simp [List.find?]
    · rw [List.map_cons, List.find?_cons_of_neg _ (by simp [h])]
      rcases List.mem_cons.mp hc with h1 | h1
      · exact absurd h1.symm h
      · exact ih c h1

theorem fieldLookup_map_fields (g : String → ℚ) (q : String) (cats : List String)
    (c : String) (hc : c ∈ cats) :
    fieldLookup ⟨q, cats.map (fun c2 => (c2, g c2))⟩ c = some (g c) := by
  simp [fieldLookup, find?_fields_map g cats c hc]

/-- C3: for every period of the sorted period list (by position) and every
category of the category list, the pivot record carries a numeric field
for that category; the field is 0 when no (period, category) match exists
in processedData, and equals the first matching ProcessedDataPoint's
runningTotal when a match exists. -/
theorem pivot_completeness (pd : List ProcessedDataPoint)
    (quarters seriesCategories : List String) (i : Nat) (q c : String)
    (hq : quarters.get? i = some q) (hc : c ∈ seriesCategories) :
    ∃ rec, (transformToStackedData pd quarters seriesCategories).get? i = some rec ∧
      rec.quarter = q ∧
      ∃ v, fieldLookup rec c = some v ∧
        ((∀ r ∈ pd, ¬(r.quarter = q ∧ r.category = c)) → v = 0) ∧
        (∀ r, pd.find? (fun d => d.quarter == q && d.category == c) = some r →
          v = r.runningTotal) ∧
        ((∃ r ∈ pd, r.quarter = q ∧ r.category = c) →
          ∃ r, pd.find? (fun d => d.quarter == q && d.category == c) = some r ∧
            v = r.runningTotal) := by
  refine ⟨_, transformToStackedData_get? pd quarters seriesCategories i q hq, rfl, ?_⟩
  refine ⟨_, fieldLookup_map_fields
      (fun c2 => match pd.find? (fun d => d.quarter == q && d.category == c2) with
        | some d => d.runningTotal
        | none => 0) q seriesCategories c hc, ?_, ?_, ?_⟩
  · intro hnone
    cases hfind : pd.find? (fun d => d.quarter == q && d.category == c) with
    | none => simp [hfind]
    | some r =>
      have hr := List.find?_some hfind
      have hmem := List.mem_of_find?_eq_some hfind
      simp only [Bool.and_eq_true, beq_iff_eq] at hr
      exact absurd hr (by simpa using hnone r hmem)
  · intro r hfind
    simp [hfind]
  · intro hex
    obtain ⟨r0, hr0, hq0, hc0⟩ := hex
    have hsome : (pd.find? (fun d => d.quarter == q && d.category == c)).isSome := by
      rw [List.find?_isSome]
      exact ⟨r0, hr0, by simp [hq0, hc0]⟩
    obtain ⟨r, hfind⟩ := Option.isSome_iff_exists.mp hsome
    exact ⟨r, hfind, by simp [hfind]⟩

/-- C3 witness: one present and one absent (period, category) pair on a
concrete input. -/
theorem pivot_completeness_witness :
    ∃ rec, (transformToStackedData [⟨"Q1", "A", 4, 4⟩] ["Q1"] ["A", "B"]).get? 0 =
        some rec ∧ rec.quarter = "Q1" ∧
      ∃ v, fieldLookup rec "B" = some v ∧ v = 0 := by
  obtain ⟨rec, hrec, hquarter, v, hv, hzero, _, _⟩ :=
    pivot_completeness [⟨"Q1", "A", 4, 4⟩] ["Q1"] ["A", "B"] 0 "Q1" "B" rfl
      (by norm_num)
  refine ⟨rec, hrec, hquarter, v, hv, hzero ?_⟩
  intro r hr
  simp only [List.mem_singleton] at hr
  subst hr
  simp +decide

/-- C9 counterexample: with the duplicated period label "Q" and a negative
second value for category "A", the pivot record's field holds the first
match's runningTotal 5, while a matching duplicate ProcessedDataPoint has
runningTotal 2 < 5, so the field is not the smallest running total among
the duplicates. -/
theorem pivot_duplicates_counterexample :
    (∃ rec, (transformToStackedData
        (computeRunningTotals [⟨"Q", "A", 5⟩, ⟨"Q", "A", -3⟩]) ["Q", "Q"] ["A"]).get? 0 =
          some rec ∧ fieldLookup rec "A" = some 5) ∧
    (∃ r, (computeRunningTotals [⟨"Q", "A", 5⟩, ⟨"Q", "A", -3⟩]).get? 1 = some r ∧
      r.quarter = "Q" ∧ r.category = "A" ∧ r.runningTotal = 2 ∧ r.runningTotal < 5) := by
  have hpd : computeRunningTotals [⟨"Q", "A", 5⟩, ⟨"Q", "A", -3⟩] =
      [⟨"Q", "A", 5, 5⟩, ⟨"Q", "A", -3, 2⟩] := by
    norm_num +decide [computeRunningTotals, computeRunningTotalsGo, rtStep, jsFalsyNum, mapSet]
  rw [hpd]
  constructor
  · refine ⟨⟨"Q", [("A", 5)]⟩, ?_, ?_⟩
    · norm_num +decide [transformToStackedData]
    · norm_num +decide [fieldLookup]
  · exact ⟨⟨"Q", "A", -3, 2⟩, rfl, rfl, rfl, rfl, by norm_num⟩

/-- C9 amended: when the sorted period list contains duplicate labels,
transformToStackedData emits one StackedRecord per list element (duplicated
labels yield multiple identically keyed records), and each category field
holds the running total of the first matching ProcessedDataPoint in
sequence order, not the last; that earliest match carries the smallest
running total among the duplicates when the matched category's values are
all non-negative, though not in general for negative values. -/
theorem pivot_duplicates_first_match (pd : List ProcessedDataPoint)
    (quarters seriesCategories : List String) :
    (transformToStackedData pd quarters seriesCategories).length = quarters.length ∧
    (∀ i q, quarters.get? i = some q → ∀ c ∈ seriesCategories,
      ∃ rec, (transformToStackedData pd quarters seriesCategories).get? i = some rec ∧
        rec.quarter = q ∧
        fieldLookup rec c =
          some (match pd.find? (fun d => d.quarter == q && d.category == c) with
            | some d => d.runningTotal
            | none => 0)) ∧
    (∀ (data : List DataPoint) (q c : String) (r : ProcessedDataPoint),
      pd = computeRunningTotals data →
      (∀ d ∈ data, d.category = c → (0 : ℚ) ≤ d.value) →
      pd.find? (fun d => d.quarter == q && d.category == c) = some r →
      ∀ r2 ∈ pd, r2.quarter = q → r2.category = c →
        r.runningTotal ≤ r2.runningTotal) := by
  refine ⟨by simp [transformToStackedData], ?_, ?_⟩
  · intro i q hq c hc
    exact ⟨_, transformToStackedData_get? pd quarters seriesCategories i q hq, rfl,
      fieldLookup_map_fields
        (fun c2 => match pd.find? (fun d => d.quarter == q && d.category == c2) with
          | some d => d.runningTotal
          | none => 0) q seriesCategories c hc⟩
  · intro data q c r hpd hpos hfind r2 hr2 hq2 hc2
    have hsort : List.Sorted (· ≤ ·) ((pd.filter (fun p => p.category == c)).map
        (fun p => p.runningTotal)) := by
      subst hpd
      rw [show computeRunningTotals data = computeRunningTotalsGo (fun _ => none) data
        from rfl, computeRunningTotalsGo_filter_runningTotal c data (fun _ => none)]
      apply runSums_sorted
      intro v hv
      obtain ⟨d, hd, rfl⟩ := List.mem_map.mp hv
      have hdc := List.of_mem_filter hd
      exact hpos d (List.mem_of_mem_filter hd) (by simpa using hdc)
    obtain ⟨hpr, as, bs, hsplit, hnotas⟩ := List.find?_eq_some.mp hfind
    have hrc : r.category = c := by
      simp only [Bool.and_eq_true, beq_iff_eq] at hpr
      exact hpr.2
    have hr2p : (r2.quarter == q && r2.category == c) = true := by simp [hq2, hc2]
    have hr2mem : r2 ∈ r :: bs := by
      rcases List.mem_append.mp (hsplit ▸ hr2) with h | h
      · exfalso
        have hna := hnotas r2 h
        rw [hr2p] at hna
        simp at hna
      · exact h
    rcases List.mem_cons.mp hr2mem with h | h
    · rw [h]
    · have hfil : pd.filter (fun p => p.category == c) =
          (as.filter (fun p => p.category == c)) ++
            r :: bs.filter (fun p => p.category == c) := by
        rw [hsplit, List.filter_append, List.filter_cons]
        simp [hrc]
      have hpw : List.Pairwise (· ≤ ·) ((pd.filter (fun p => p.category == c)).map
          (fun p => p.runningTotal)) := hsort
      rw [hfil, List.map_append, List.map_cons] at hpw
      have hsuffix := (List.pairwise_append.mp hpw).2.1
      have hhead := (List.pairwise_cons.mp hsuffix).1
      apply hhead
      rw [List.mem_map]
      exact ⟨r2, List.mem_filter.mpr ⟨h, by simp [hc2]⟩, rfl⟩

/-- C9 witness: the first-match field rule instantiated on a duplicated
period label. -/
theorem pivot_duplicates_first_match_witness :
    ∃ rec, (transformToStackedData [⟨"Q", "A", 1, 1⟩, ⟨"Q", "A", 2, 3⟩]
        ["Q", "Q"] ["A"]).get? 1 = some rec ∧
      rec.quarter = "Q" ∧ fieldLookup rec "A" = some 1 := by
  obtain ⟨rec, h1, h2, h3⟩ := (pivot_duplicates_first_match
    [⟨"Q", "A", 1, 1⟩, ⟨"Q", "A", 2, 3⟩] ["Q", "Q"] ["A"]).2.1 1 "Q" rfl "A"
    (by norm_num)
  refine ⟨rec, h1, h2, ?_⟩
  rw [h3]
  norm_num +decide

theorem buildRow_congr (quarters : List String) (category : String)
    (col col2 : List (Option ℚ))
    (h : ∀ i : Nat, jsNum (col.getD i none) = jsNum (col2.getD i none)) :
    buildRow quarters category col = buildRow quarters category col2 := by
  apply List.map_congr_left
  intro i _
  rw [h i]

/-- C7: update degrades to a no-op when the data view is missing, the
categorical data is missing, the category list is missing or empty, or the
value list is missing or empty: it returns directly after the surface was
cleared, drawing nothing and raising nothing; and a null/missing value
cell is coerced to 0 in the flat record, and the flat records (hence all
downstream totals) depend on the groups only through that coercion of the
first-measure cells. -/
theorem update_degrades_to_noop :
    (∀ dataViews : List DataView, dataViews.head? = none → update dataViews = none) ∧
    (∀ (dataViews : List DataView) (dv : DataView), dataViews.head? = some dv →
      dv.categorical = none → update dataViews = none) ∧
    (∀ (dataViews : List DataView) (dv : DataView) (cg : Categorical),
      dataViews.head? = some dv → dv.categorical = some cg →
      jsMissingOrEmpty cg.categories = true → update dataViews = none) ∧
    (∀ (dataViews : List DataView) (dv : DataView) (cg : Categorical),
      dataViews.head? = some dv → dv.categorical = some cg →
      jsMissingOrEmpty cg.values = true → update dataViews = none) ∧
    (∀ (quarters : List String) (category : String) (valueColumn : List (Option ℚ))
      (i : Nat), i < quarters.length → valueColumn.getD i none = none →
      (buildRow quarters category valueColumn).get? i =
        some ⟨quarters.getD i "", category, 0⟩) ∧
    (∀ (quarters seriesCategories : List String) (values values2 : List ValueGroup),
      (∀ j i : Nat, jsNum ((groupCol values j).getD i none) =
        jsNum ((groupCol values2 j).getD i none)) →
      buildDataArray quarters seriesCategories values =
        buildDataArray quarters seriesCategories values2) := by
  refine ⟨?_, ?_, ?_, ?_, ?_, ?_⟩
  · intro dataViews h
    simp [update, h]
  · intro dataViews dv h1 h2
    simp [update, h1, h2]
  · intro dataViews dv cg h1 h2 h3
    simp [update, h1, h2, h3]
  · intro dataViews dv cg h1 h2 h3
    simp [update, h1, h2, h3]
  · intro quarters category valueColumn i hi hcell
    rw [buildRow_get? quarters category valueColumn i hi, hcell]
    rfl
  · intro quarters seriesCategories values values2 hsame
    rw [show buildDataArray quarters seriesCategories values =
      ((List.range seriesCategories.length).map (fun j =>
        buildRow quarters (seriesCategories.getD j "") (groupCol values j))).flatten from rfl,
      show buildDataArray quarters seriesCategories values2 =
      ((List.range seriesCategories.length).map (fun j =>
        buildRow quarters (seriesCategories.getD j "") (groupCol values2 j))).flatten from rfl]
    congr 1
    apply List.map_congr_left
    intro j _
    exact buildRow_congr quarters (seriesCategories.getD j "") (groupCol values j)
      (groupCol values2 j) (hsame j)

/-- C7 witness: the no-op cases and the null-cell coercion instantiated on
concrete inputs. -/
theorem update_degrades_to_noop_witness :
    update [] = none ∧
    update [⟨none⟩] = none ∧
    update [⟨some ⟨some [], some [⟨"A", [[some 1]]⟩]⟩⟩] = none ∧
    update [⟨some ⟨some [⟨["Q1"]⟩], none⟩⟩] = none ∧
    (buildRow ["Q1"] "A" [none]).get? 0 = some ⟨"Q1", "A", 0⟩ := by
  refine ⟨update_degrades_to_noop.1 [] rfl,
    update_degrades_to_noop.2.1 [⟨none⟩] ⟨none⟩ rfl rfl,
    update_degrades_to_noop.2.2.1 [⟨some ⟨some [], some [⟨"A", [[some 1]]⟩]⟩⟩]
      ⟨some ⟨some [], some [⟨"A", [[some 1]]⟩]⟩⟩ ⟨some [], some [⟨"A", [[some 1]]⟩]⟩
      rfl rfl rfl,
    update_degrades_to_noop.2.2.2.1 [⟨some ⟨some [⟨["Q1"]⟩], none⟩⟩]
      ⟨some ⟨some [⟨["Q1"]⟩], none⟩⟩ ⟨some [⟨["Q1"]⟩], none⟩ rfl rfl rfl,
    ?_⟩
  have h := update_degrades_to_noop.2.2.2.2.1 ["Q1"] "A" [none] 0 (by norm_num) rfl
  simpa using h

/-! Helper lemmas for the vertical scale maximum. -/

theorem d3max_some_spec (l : List ℚ) :
    ∀ m0 m : ℚ,
      List.foldl (fun acc v => match acc with | none => some v | some mm => some (max mm v))
        (some m0) l = some m →
      (m = m0 ∨ m ∈ l) ∧ m0 ≤ m ∧ ∀ x ∈ l, x ≤ m := by
  induction l with
  | nil =>
    intro m0 m h
    simp only [List.foldl_nil, Option.some.injEq] at h
    subst h
    exact ⟨Or.inl rfl, le_refl _, by simp⟩
  | cons v l ih =>
    intro m0 m h
    simp only [List.foldl_cons] at h
    obtain ⟨hmem, hle, hall⟩ := ih (max m0 v) m h
    refine ⟨?_, le_trans (le_max_left m0 v) hle, ?_⟩
    · rcases hmem with rfl | hm
      · rcases max_choice m0 v with hc | hc
        · exact Or.inl hc
        · exact Or.inr (by rw [hc]; exact List.mem_cons_self _ _)
      · exact Or.inr (List.mem_cons_of_mem _ hm)
    · intro x hx
      rcases List.mem_cons.mp hx with rfl | hx
      · exact le_trans (le_max_right m0 x) hle
      · exact hall x hx

theorem d3max_isSome (l : List ℚ) :
    ∀ acc : ℚ, (List.foldl (fun acc v => match acc with
      | none => some v
      | some mm => some (max mm v)) (some acc) l).isSome = true := by
  induction l with
  | nil => intro acc; rfl
  | cons v l ih => intro acc; simpa [List.foldl_cons] using ih (max acc v)

theorem computeMaxY_spec (stackedData : List StackedDataPoint)
    (seriesCategories : List String) :
    (stackedData = [] → computeMaxY stackedData seriesCategories = 0) ∧
    (∀ d ∈ stackedData, (seriesCategories.map (fun c => fieldValue d c)).sum ≤
      computeMaxY stackedData seriesCategories) ∧
    (stackedData ≠ [] → ∃ d ∈ stackedData,
      computeMaxY stackedData seriesCategories =
        (seriesCategories.map (fun c => fieldValue d c)).sum) := by
  cases hsd : stackedData with
  | nil => refine ⟨fun _ => rfl, by simp, fun h => absurd rfl h⟩
  | cons d0 rest =>
    have hsome := d3max_isSome (rest.map (fun d =>
      (seriesCategories.map (fun c => fieldValue d c)).sum))
      ((seriesCategories.map (fun c => fieldValue d0 c)).sum)
    obtain ⟨m, hm⟩ := Option.isSome_iff_exists.mp hsome
    have hmax : d3max ((d0 :: rest).map (fun d =>
        (seriesCategories.map (fun c => fieldValue d c)).sum)) = some m := by
      simpa [d3max, List.foldl_cons] using hm
    obtain ⟨hmem, hm0le, hall⟩ := d3max_some_spec (rest.map (fun d =>
      (seriesCategories.map (fun c => fieldValue d c)).sum)) _ m hm
    have hcm : computeMaxY (d0 :: rest) seriesCategories = m := by
      show (d3max ((d0 :: rest).map (fun d =>
        (seriesCategories.map (fun c => fieldValue d c)).sum))).getD 0 = m
      rw [hmax]
      rfl
    refine ⟨?_, ?_, ?_⟩
    · intro hcon
      exact (List.cons_ne_nil d0 rest hcon).elim
    · intro d hd
      rw [hcm]
      rcases List.mem_cons.mp hd with rfl | hd
      · exact hm0le
      · exact hall _ (List.mem_map.mpr ⟨d, hd, rfl⟩)
    · intro _
      rw [hcm]
      rcases hmem with rfl | hm2
      · exact ⟨d0, List.mem_cons_self _ _, rfl⟩
      · obtain ⟨d, hd, hde⟩ := List.mem_map.mp hm2
        exact ⟨d, List.mem_cons_of_mem _ hd, hde.symm⟩

/-- C8: whenever update draws, maxY is the maximum over all StackedRecords
of the sum over the categories of that category's running-total field at
that period (attained on some record, and an upper bound of all of them);
when the pivoted data is empty maxY is 0, the vertical domain is always
the pair (0, maxY), and it degenerates to (0, 0) rather than being
undefined when the maximum is 0 or the data is empty. -/
theorem max_stacked_total_domain (dataViews : List DataView) (rd : RenderData)
    (h : update dataViews = some rd) :
    (∀ d ∈ rd.stackedData,
      (rd.seriesCategories.map (fun c => fieldValue d c)).sum ≤ rd.maxY) ∧
    (rd.stackedData ≠ [] → ∃ d ∈ rd.stackedData,
      rd.maxY = (rd.seriesCategories.map (fun c => fieldValue d c)).sum) ∧
    (rd.stackedData = [] → rd.maxY = 0) ∧
    rd.yDomain = (0, rd.maxY) ∧
    (rd.maxY = 0 → rd.yDomain = (0, 0)) := by
  have hshape : rd.maxY = computeMaxY rd.stackedData rd.seriesCategories ∧
      rd.yDomain = (0, rd.maxY) := by
    cases hdv : dataViews.head? with
    | none => simp [update, hdv] at h
    | some dv =>
      cases hcg : dv.categorical with
      | none => simp [update, hdv, hcg] at h
      | some cg =>
        by_cases hmt : (jsMissingOrEmpty cg.categories || jsMissingOrEmpty cg.values) = true
        · simp [update, hdv, hcg, hmt] at h
        · simp only [update, hdv, hcg] at h
          rw [if_neg hmt] at h
          obtain rfl := (Option.some.inj h)
          exact ⟨rfl, rfl⟩
  obtain ⟨hmaxY, hdom⟩ := hshape
  obtain ⟨hempty, hub, hatt⟩ := computeMaxY_spec rd.stackedData rd.seriesCategories
  refine ⟨?_, ?_, ?_, hdom, ?_⟩
  · intro d hd
    rw [hmaxY]
    exact hub d hd
  · intro hne
    obtain ⟨d, hd, he⟩ := hatt hne
    exact ⟨d, hd, by rw [hmaxY, he]⟩
  · intro he
    rw [hmaxY]
    exact hempty he
  · intro h0
    rw [hdom, h0]

/-- C8 witness: a one-period, one-category update whose maximum and domain
are computed concretely. -/
theorem max_stacked_total_domain_witness :
    ∃ rd, update [⟨some ⟨some [⟨["Q1"]⟩], some [⟨"A", [[some 2]]⟩]⟩⟩] = some rd ∧
      rd.yDomain = (0, rd.maxY) ∧ (rd.stackedData ≠ [] → ∃ d ∈ rd.stackedData,
        rd.maxY = (rd.seriesCategories.map (fun c => fieldValue d c)).sum) := by
  have hupd : update [⟨some ⟨some [⟨["Q1"]⟩], some [⟨"A", [[some 2]]⟩]⟩⟩] =
      some ⟨["Q1"], ["A"], [⟨"Q1", [("A", 2)]⟩], 2, (0, 2)⟩ := by
    norm_num +decide [update, jsMissingOrEmpty, sortQuarters, buildDataArray, buildRow,
      groupCol, jsNum, computeRunningTotals, computeRunningTotalsGo, rtStep, jsFalsyNum,
      mapSet, transformToStackedData, computeMaxY, d3max, fieldValue, fieldLookup]
  have hmain := max_stacked_total_domain [⟨some ⟨some [⟨["Q1"]⟩], some [⟨"A", [[some 2]]⟩]⟩⟩]
    ⟨["Q1"], ["A"], [⟨"Q1", [("A", 2)]⟩], 2, (0, 2)⟩ hupd
  exact ⟨_, hupd, hmain.2.2.2.1, hmain.2.1⟩
